import Mathlib

/-!
Verification of the tudu encrypted persistence layer.

The development shallowly embeds the repository's core (`src/tudu/models.py`
and `src/tudu/storage.py`): entity models (`Task`, `Project`), the codec
(JSON serialization + authenticated encryption), and the storage engine
(two tables of encrypted rows with CRUD, listing, sorting and statistics).

Python's `json` and `cryptography.fernet` libraries are not part of the
repository; they are modelled from the specification's words (a re-parseable
canonical encoding; authenticated symmetric encryption with tamper
detection), with each such definition marked `Modelled from the spec`.
-/

namespace Tudu

/-! ## JSON values and records

The records the repository serializes are string-keyed maps whose values are
strings, integers, null, or lists of strings (the exact shapes produced by
`Task.to_dict` and `Project.to_dict`). -/

/-- A JSON-compatible value of the shapes the repository stores. -/
inductive JVal where
  | jnull : JVal
  | jint (n : Int) : JVal
  | jstr (s : String) : JVal
  | jarr (xs : List String) : JVal
deriving DecidableEq

/-- A record: a string-keyed map of JSON-compatible values, in insertion
order (Python dicts preserve insertion order). -/
abbrev Record := List (String × JVal)

namespace Json

/-- Lower-case hex digit for a value below 16. -/
def hexDigitChar (n : Nat) : Char :=
  if n < 10 then Char.ofNat (48 + n) else Char.ofNat (87 + n)

/-- Modelled from the spec: `json.dumps` escaping of one character
(`\\`, `\"`, `\n`, `\t`, `\r`, `\b`, `\f` shortcuts, `\u00XX` for other
control characters, everything else literal). -/
def escChar (c : Char) : List Char :=
  if c = '\\' then ['\\', '\\']
  else if c = '"' then ['\\', '"']
  else if c = '\n' then ['\\', 'n']
  else if c = '\t' then ['\\', 't']
  else if c = '\r' then ['\\', 'r']
  else if c = Char.ofNat 8 then ['\\', 'b']
  else if c = Char.ofNat 12 then ['\\', 'f']
  else if c.toNat < 32 then
    ['\\', 'u', '0', '0', hexDigitChar (c.toNat / 16), hexDigitChar (c.toNat % 16)]
  else [c]

def escString : List Char → List Char
  | [] => []
  | c :: cs => escChar c ++ escString cs

/-- A JSON string literal: quote, escaped contents, quote. -/
def serStr (s : String) : List Char := '"' :: (escString s.data ++ ['"'])

def digitChar (n : Nat) : Char := Char.ofNat (48 + n)

/-- Decimal digits of a natural number, most significant first; the fuel is
structural only and any fuel above `n` gives the same digits. -/
def natDigitsAux : Nat → Nat → List Char
  | 0, _ => []
  | fuel + 1, n =>
    if n < 10 then [digitChar n]
    else natDigitsAux fuel (n / 10) ++ [digitChar (n % 10)]

def natDigits (n : Nat) : List Char := natDigitsAux (n + 1) n

/-- Decimal rendering of an integer, as Python prints it. -/
def serInt (n : Int) : List Char :=
  if n < 0 then '-' :: natDigits n.natAbs else natDigits n.toNat

/-- Comma-space separated string literals (json.dumps default separators). -/
def serStrList : List String → List Char
  | [] => []
  | [s] => serStr s
  | s :: rest => serStr s ++ ',' :: ' ' :: serStrList rest

def serArr (xs : List String) : List Char :=
  match xs with
  | [] => ['[', ']']
  | _ => '[' :: (serStrList xs ++ [']'])

def serVal : JVal → List Char
  | .jnull => ['n', 'u', 'l', 'l']
  | .jint n => serInt n
  | .jstr s => serStr s
  | .jarr xs => serArr xs

def serField (kv : String × JVal) : List Char :=
  serStr kv.1 ++ ':' :: ' ' :: serVal kv.2

def serFieldsAux : Record → List Char
  | [] => []
  | [kv] => serField kv
  | kv :: rest => serField kv ++ ',' :: ' ' :: serFieldsAux rest

/-- Modelled from the spec: `json.dumps` on a record — a canonical,
re-parseable byte encoding (here as Unicode characters; the key order of the
map is kept). -/
def dumps (r : Record) : List Char :=
  match r with
  | [] => ['{', '}']
  | _ => '{' :: (serFieldsAux r ++ ['}'])

def isDigitChar (c : Char) : Bool := 48 ≤ c.toNat && c.toNat ≤ 57

def digitVal (c : Char) : Nat := c.toNat - 48

def foldDigits (l : List Char) : Nat := l.foldl (fun a c => a * 10 + digitVal c) 0

/-- Parse a nonempty run of decimal digits. -/
def parseNat (l : List Char) : Option (Nat × List Char) :=
  let ds := l.takeWhile isDigitChar
  if ds.isEmpty then none else some (foldDigits ds, l.dropWhile isDigitChar)

def parseInt (l : List Char) : Option (Int × List Char) :=
  match l with
  | [] => none
  | c :: rest =>
    if c = '-' then
      match parseNat rest with
      | some (n, r) => some (-(n : Int), r)
      | none => none
    else
      match parseNat l with
      | some (n, r) => some ((n : Int), r)
      | none => none

def hexVal (c : Char) : Option Nat :=
  if 48 ≤ c.toNat && c.toNat ≤ 57 then some (c.toNat - 48)
  else if 97 ≤ c.toNat && c.toNat ≤ 102 then some (c.toNat - 87)
  else if 65 ≤ c.toNat && c.toNat ≤ 70 then some (c.toNat - 55)
  else none

def unescChar (c : Char) : Option Char :=
  if c = '\\' then some '\\'
  else if c = '"' then some '"'
  else if c = '/' then some '/'
  else if c = 'n' then some '\n'
  else if c = 't' then some '\t'
  else if c = 'r' then some '\r'
  else if c = 'b' then some (Char.ofNat 8)
  else if c = 'f' then some (Char.ofNat 12)
  else none

/-- Parse the contents of a string literal up to (and consuming) the closing
quote; the fuel is structural only. -/
def parseStrAux : Nat → List Char → Option (List Char × List Char)
  | 0, _ => none
  | fuel + 1, l =>
    match l with
    | [] => none
    | c :: rest =>
      if c = '"' then some ([], rest)
      else if c = '\\' then
        match rest with
        | [] => none
        | e :: rest2 =>
          if e = 'u' then
            match rest2 with
            | h1 :: h2 :: h3 :: h4 :: rest3 =>
              match hexVal h1, hexVal h2, hexVal h3, hexVal h4 with
              | some a, some b, some c2, some d =>
                match parseStrAux fuel rest3 with
                | some (cs, r) =>
                  some (Char.ofNat (((a * 16 + b) * 16 + c2) * 16 + d) :: cs, r)
                | none => none
              | _, _, _, _ => none
            | _ => none
          else
            match unescChar e with
            | some c2 =>
              match parseStrAux fuel rest2 with
              | some (cs, r) => some (c2 :: cs, r)
              | none => none
            | none => none
      else
        match parseStrAux fuel rest with
        | some (cs, r) => some (c :: cs, r)
        | none => none

def parseStr (l : List Char) : Option (String × List Char) :=
  match l with
  | [] => none
  | c :: rest =>
    if c = '"' then
      match parseStrAux (rest.length + 1) rest with
      | some (cs, r) => some (String.mk cs, r)
      | none => none
    else none

/-- Parse a nonempty comma-space separated list of string literals up to
(and consuming) the closing bracket. -/
def parseArrAux : Nat → List Char → Option (List String × List Char)
  | 0, _ => none
  | fuel + 1, l =>
    match parseStr l with
    | none => none
    | some (s, r1) =>
      match r1 with
      | ',' :: ' ' :: r2 =>
        match parseArrAux fuel r2 with
        | some (xs, r3) => some (s :: xs, r3)
        | none => none
      | ']' :: r2 => some ([s], r2)
      | _ => none

def parseVal (l : List Char) : Option (JVal × List Char) :=
  match l with
  | [] => none
  | c :: rest =>
    if c = 'n' then
      match rest with
      | 'u' :: 'l' :: 'l' :: r => some (JVal.jnull, r)
      | _ => none
    else if c = '"' then
      match parseStr l with
      | some (s, r) => some (JVal.jstr s, r)
      | none => none
    else if c = '[' then
      match rest with
      | [] => none
      | d :: rest2 =>
        if d = ']' then some (JVal.jarr [], rest2)
        else
          match parseArrAux (rest.length + 1) rest with
          | some (xs, r) => some (JVal.jarr xs, r)
          | none => none
    else
      match parseInt l with
      | some (n, r) => some (JVal.jint n, r)
      | none => none

/-- Parse a nonempty comma-space separated list of `"key": value` pairs up
to (and consuming) the closing brace. -/
def parseFieldsAux : Nat → List Char → Option (Record × List Char)
  | 0, _ => none
  | fuel + 1, l =>
    match parseStr l with
    | none => none
    | some (k, r1) =>
      match r1 with
      | ':' :: ' ' :: r2 =>
        match parseVal r2 with
        | none => none
        | some (v, r3) =>
          match r3 with
          | ',' :: ' ' :: r4 =>
            match parseFieldsAux fuel r4 with
            | some (fs, r5) => some ((k, v) :: fs, r5)
            | none => none
          | '}' :: r4 => some ([(k, v)], r4)
          | _ => none
      | _ => none

/-- Modelled from the spec: `json.loads` on the encoding of a record —
fails on anything that is not a fully consumed serialized record. -/
def loads (l : List Char) : Option Record :=
  match l with
  | [] => none
  | c :: rest =>
    if c = '{' then
      match rest with
      | [] => none
      | d :: rest2 =>
        if d = '}' then (if rest2.isEmpty then some [] else none)
        else
          match parseFieldsAux (rest.length + 1) rest with
          | some (fs, []) => some fs
          | _ => none
    else none

/-! ### Character facts -/

theorem char_valid (c : Char) : c.toNat.isValidChar := by
  have := c.valid
  simpa [UInt32.isValidChar, Char.toNat] using this

theorem char_toNat_lt (c : Char) : c.toNat < 1114112 := by
  rcases char_valid c with h | h
  · omega
  · omega

theorem char_ofNat_toNat (c : Char) : Char.ofNat c.toNat = c := by
  have h : c.toNat.isValidChar := char_valid c
  rw [Char.ofNat, dif_pos h]
  rcases c with ⟨⟨⟨v, hv⟩⟩, hvalid⟩
  rfl

theorem char_toNat_ofNat_of_lt (m : Nat) (h : m < 55296) : (Char.ofNat m).toNat = m := by
  have hv : m.isValidChar := Or.inl h
  rw [Char.ofNat, dif_pos hv]
  simp [Char.ofNatAux, Char.toNat, UInt32.toNat]

theorem char_eq_of_toNat_eq {c d : Char} (h : c.toNat = d.toNat) : c = d := by
  have := congrArg Char.ofNat h
  rwa [char_ofNat_toNat, char_ofNat_toNat] at this

/-! ### takeWhile / dropWhile over an append -/

theorem takeWhile_append_all {α : Type} {p : α → Bool} :
    ∀ l1 l2 : List α, (∀ c ∈ l1, p c = true) →
      (∀ c, l2.head? = some c → p c = false) →
      (l1 ++ l2).takeWhile p = l1 := by
  intro l1 l2 h1 h2
  induction l1 with
  | nil =>
    cases l2 with
    | nil => rfl
    | cons c t => simp [List.takeWhile, h2 c rfl]
  | cons c t ih =>
    have hc : p c = true := h1 c (List.mem_cons_self c t)
    simp only [List.cons_append, List.takeWhile, hc]
    have := ih (fun x hx => h1 x (List.mem_cons_of_mem c hx))
    simp [this]

theorem dropWhile_append_all {α : Type} {p : α → Bool} :
    ∀ l1 l2 : List α, (∀ c ∈ l1, p c = true) →
      (∀ c, l2.head? = some c → p c = false) →
      (l1 ++ l2).dropWhile p = l2 := by
  intro l1 l2 h1 h2
  induction l1 with
  | nil =>
    cases l2 with
    | nil => rfl
    | cons c t => simp [List.dropWhile, h2 c rfl]
  | cons c t ih =>
    have hc : p c = true := h1 c (List.mem_cons_self c t)
    simp only [List.cons_append, List.dropWhile, hc]
    exact ih (fun x hx => h1 x (List.mem_cons_of_mem c hx))

/-! ### Decimal digits -/

theorem digitChar_toNat {d : Nat} (h : d < 10) : (digitChar d).toNat = 48 + d := by
  rw [digitChar, char_toNat_ofNat_of_lt]
  omega

theorem digitVal_digitChar {d : Nat} (h : d < 10) : digitVal (digitChar d) = d := by
  rw [digitVal, digitChar_toNat h]
  omega

theorem isDigitChar_digitChar {d : Nat} (h : d < 10) : isDigitChar (digitChar d) = true := by
  rw [isDigitChar, digitChar_toNat h]
  simp
  omega

theorem natDigitsAux_congr :
    ∀ f1 f2 n, n < f1 → n < f2 → natDigitsAux f1 n = natDigitsAux f2 n := by
  intro f1
  induction f1 with
  | zero => intro f2 n h1; omega
  | succ g ih =>
    intro f2 n h1 h2
    match f2, h2 with
    | h + 1, _ =>
      by_cases hn : n < 10
      · simp [natDigitsAux, hn]
      · have hlt : n / 10 < n := Nat.div_lt_self (by omega) (by omega)
        simp only [natDigitsAux, if_neg hn]
        rw [ih h (n / 10) (by omega) (by omega)]

theorem natDigits_unfold (n : Nat) :
    natDigits n = if n < 10 then [digitChar n]
      else natDigits (n / 10) ++ [digitChar (n % 10)] := by
  by_cases hn : n < 10
  · simp [natDigits, natDigitsAux, hn]
  · have hlt : n / 10 < n := Nat.div_lt_self (by omega) (by omega)
    have h1 : natDigitsAux (n + 1) n =
        if n < 10 then [digitChar n]
        else natDigitsAux n (n / 10) ++ [digitChar (n % 10)] := rfl
    rw [if_neg hn, natDigits, h1, if_neg hn, natDigits]
    rw [natDigitsAux_congr n (n / 10 + 1) (n / 10) (by omega) (by omega)]

theorem natDigits_all_digits :
    ∀ n c, c ∈ natDigits n → isDigitChar c = true := by
  intro n
  induction n using Nat.strong_induction_on with
  | _ n ih =>
    intro c hc
    rw [natDigits_unfold] at hc
    by_cases hn : n < 10
    · rw [if_pos hn] at hc
      simp at hc
      subst hc
      exact isDigitChar_digitChar hn
    · rw [if_neg hn] at hc
      rcases List.mem_append.mp hc with h | h
      · exact ih (n / 10) (Nat.div_lt_self (by omega) (by omega)) c h
      · simp at h
        subst h
        exact isDigitChar_digitChar (Nat.mod_lt _ (by omega))

theorem natDigits_ne_nil (n : Nat) : natDigits n ≠ [] := by
  rw [natDigits_unfold]
  by_cases hn : n < 10 <;> simp [hn]

theorem foldDigits_natDigits : ∀ n, foldDigits (natDigits n) = n := by
  intro n
  induction n using Nat.strong_induction_on with
  | _ n ih =>
    rw [natDigits_unfold]
    by_cases hn : n < 10
    · simp [if_pos hn, foldDigits, digitVal_digitChar hn]
    · rw [if_neg hn, foldDigits, List.foldl_append]
      have : List.foldl (fun a c => a * 10 + digitVal c) 0 (natDigits (n / 10)) = n / 10 :=
        ih (n / 10) (Nat.div_lt_self (by omega) (by omega))
      rw [this]
      simp [digitVal_digitChar (Nat.mod_lt n (show 0 < 10 by omega))]
      omega

/-! ### parseNat / parseInt round trips -/

theorem parseNat_round (n : Nat) (rest : List Char)
    (h : ∀ c, rest.head? = some c → isDigitChar c = false) :
    parseNat (natDigits n ++ rest) = some (n, rest) := by
  rw [parseNat]
  have ht := takeWhile_append_all (natDigits n) rest (natDigits_all_digits n) h
  have hd := dropWhile_append_all (natDigits n) rest (natDigits_all_digits n) h
  simp only [ht, hd]
  rw [if_neg (by simpa [List.isEmpty_iff] using natDigits_ne_nil n)]
  rw [foldDigits_natDigits]

theorem isDigitChar_bounds {c : Char} (h : isDigitChar c = true) :
    48 ≤ c.toNat ∧ c.toNat ≤ 57 := by
  rw [isDigitChar] at h
  simpa using h

theorem parseInt_round (n : Int) (rest : List Char)
    (h : ∀ c, rest.head? = some c → isDigitChar c = false) :
    parseInt (serInt n ++ rest) = some (n, rest) := by
  by_cases hn : n < 0
  · rw [serInt, if_pos hn]
    simp only [List.cons_append, parseInt]
    rw [if_pos trivial, parseNat_round _ _ h]
    simp [Int.ofNat_natAbs_of_nonpos (by omega : n ≤ 0)]
  · rw [serInt, if_neg hn]
    obtain ⟨c, cs, hcons⟩ := List.exists_cons_of_ne_nil (natDigits_ne_nil n.toNat)
    have hcdig : isDigitChar c = true := by
      apply natDigits_all_digits n.toNat
      rw [hcons]
      exact List.mem_cons_self c cs
    have hcm : c ≠ '-' := by
      intro he
      rw [he] at hcdig
      have hff : isDigitChar '-' = false := by decide
      rw [hff] at hcdig
      cases hcdig
    rw [hcons]
    simp only [List.cons_append, parseInt]
    rw [if_neg hcm]
    have hback : c :: (cs ++ rest) = natDigits n.toNat ++ rest := by
      rw [hcons, List.cons_append]
    rw [hback, parseNat_round _ _ h]
    simp [Int.toNat_of_nonneg (by omega : (0 : Int) ≤ n)]

/-! ### String literal round trip -/

theorem parseStrAux_quote (fuel : Nat) (rest : List Char) :
    parseStrAux (fuel + 1) ('"' :: rest) = some ([], rest) := rfl

theorem parseStrAux_esc (fuel : Nat) (e c2 : Char) (rest : List Char)
    (hu : e ≠ 'u') (hc : unescChar e = some c2) :
    parseStrAux (fuel + 1) ('\\' :: e :: rest) =
      match parseStrAux fuel rest with
      | some (cs, r) => some (c2 :: cs, r)
      | none => none := by
  simp only [parseStrAux, if_neg (by decide : ¬('\\' : Char) = '"'),
    if_neg hu, hc]
  rw [if_pos trivial]

theorem parseStrAux_u (fuel : Nat) (h1 h2 : Char) (rest : List Char) (a b : Nat)
    (ha : hexVal h1 = some a) (hb : hexVal h2 = some b) :
    parseStrAux (fuel + 1) ('\\' :: 'u' :: '0' :: '0' :: h1 :: h2 :: rest) =
      match parseStrAux fuel rest with
      | some (cs, r) => some (Char.ofNat (16 * a + b) :: cs, r)
      | none => none := by
  have hz : hexVal '0' = some 0 := by decide
  simp only [parseStrAux, if_neg (by decide : ¬('\\' : Char) = '"'),
    hz, ha, hb]
  rw [if_pos trivial, if_pos trivial]
  have harith : ((0 * 16 + 0) * 16 + a) * 16 + b = 16 * a + b := by ring
  rw [harith]

theorem parseStrAux_plain (fuel : Nat) (c : Char) (rest : List Char)
    (hq : c ≠ '"') (hb : c ≠ '\\') :
    parseStrAux (fuel + 1) (c :: rest) =
      match parseStrAux fuel rest with
      | some (cs, r) => some (c :: cs, r)
      | none => none := by
  simp only [parseStrAux, if_neg hq, if_neg hb]

theorem parseStrAux_round :
    ∀ (cs : List Char) (fuel : Nat) (rest : List Char), cs.length < fuel →
      parseStrAux fuel (escString cs ++ '"' :: rest) = some (cs, rest) := by
  intro cs
  induction cs with
  | nil =>
    intro fuel rest hf
    match fuel, hf with
    | f + 1, _ => exact parseStrAux_quote f rest
  | cons c cs ih =>
    intro fuel rest hf
    match fuel, hf with
    | f + 1, hf2 =>
      have hfl : cs.length < f := by
        simp only [List.length_cons] at hf2
        omega
      have hrec := ih f rest hfl
      show parseStrAux (f + 1) (escChar c ++ escString cs ++ '"' :: rest) = _
      rw [escChar]
      by_cases h1 : c = '\\'
      · subst h1
        rw [if_pos rfl]
        simp only [List.cons_append, List.nil_append]
        rw [parseStrAux_esc f '\\' '\\' _ (by decide) (by decide), hrec]
      rw [if_neg h1]
      by_cases h2 : c = '"'
      · subst h2
        rw [if_pos rfl]
        simp only [List.cons_append, List.nil_append]
        rw [parseStrAux_esc f '"' '"' _ (by decide) (by decide), hrec]
      rw [if_neg h2]
      by_cases h3 : c = '\n'
      · subst h3
        rw [if_pos rfl]
        simp only [List.cons_append, List.nil_append]
        rw [parseStrAux_esc f 'n' '\n' _ (by decide) (by decide), hrec]
      rw [if_neg h3]
      by_cases h4 : c = '\t'
      · subst h4
        rw [if_pos rfl]
        simp only [List.cons_append, List.nil_append]
        rw [parseStrAux_esc f 't' '\t' _ (by decide) (by decide), hrec]
      rw [if_neg h4]
      by_cases h5 : c = '\r'
      · subst h5
        rw [if_pos rfl]
        simp only [List.cons_append, List.nil_append]
        rw [parseStrAux_esc f 'r' '\r' _ (by decide) (by decide), hrec]
      rw [if_neg h5]
      by_cases h6 : c = Char.ofNat 8
      · subst h6
        rw [if_pos rfl]
        simp only [List.cons_append, List.nil_append]
        rw [parseStrAux_esc f 'b' (Char.ofNat 8) _ (by decide) (by decide), hrec]
      rw [if_neg h6]
      by_cases h7 : c = Char.ofNat 12
      · subst h7
        rw [if_pos rfl]
        simp only [List.cons_append, List.nil_append]
        rw [parseStrAux_esc f 'f' (Char.ofNat 12) _ (by decide) (by decide), hrec]
      rw [if_neg h7]
      by_cases h8 : c.toNat < 32
      · rw [if_pos h8]
        simp only [List.cons_append, List.nil_append]
        have hhi : hexVal (hexDigitChar (c.toNat / 16)) = some (c.toNat / 16) := by
          have : c.toNat / 16 < 16 := by omega
          revert this
          have hball : ∀ m, m < 16 → hexVal (hexDigitChar m) = some m := by decide
          exact hball (c.toNat / 16)
        have hlo : hexVal (hexDigitChar (c.toNat % 16)) = some (c.toNat % 16) := by
          have hball : ∀ m, m < 16 → hexVal (hexDigitChar m) = some m := by decide
          exact hball (c.toNat % 16) (by omega)
        rw [parseStrAux_u f _ _ _ _ _ hhi hlo, hrec]
        have harith : 16 * (c.toNat / 16) + c.toNat % 16 = c.toNat := by omega
        rw [harith, char_ofNat_toNat]
      · rw [if_neg h8]
        simp only [List.cons_append, List.nil_append]
        rw [parseStrAux_plain f c _ h2 h1, hrec]

theorem escString_length_ge : ∀ cs : List Char, cs.length ≤ (escString cs).length := by
  intro cs
  induction cs with
  | nil => simp [escString]
  | cons c cs ih =>
    have hne : escChar c ≠ [] := by
      rw [escChar]
      repeat' split
      all_goals simp
    have : 1 ≤ (escChar c).length := by
      cases hE : escChar c with
      | nil => exact absurd hE hne
      | cons a t => simp
    simp only [escString, List.length_append, List.length_cons]
    omega

theorem parseStr_round (s : String) (rest : List Char) :
    parseStr (serStr s ++ rest) = some (s, rest) := by
  rw [serStr]
  simp only [List.cons_append, parseStr, if_pos rfl, List.append_assoc,
    List.cons_append, List.nil_append]
  have hlen : s.data.length < (escString s.data ++ '"' :: rest).length + 1 := by
    have := escString_length_ge s.data
    simp only [List.length_append, List.length_cons]
    omega
  rw [parseStrAux_round s.data _ rest hlen]
  cases s
  rfl

/-! ### Array, value and record round trips -/

theorem serStr_ne_nil (s : String) : serStr s ≠ [] := by
  simp [serStr]

theorem serStrList_head (s : String) (ss : List String) :
    ∃ t, serStrList (s :: ss) = '"' :: t := by
  cases ss with
  | nil => exact ⟨escString s.data ++ ['"'], rfl⟩
  | cons s2 ss2 =>
    refine ⟨escString s.data ++ ['"'] ++ ',' :: ' ' :: serStrList (s2 :: ss2), ?_⟩
    simp [serStrList, serStr]

theorem serStrList_length_ge :
    ∀ ss : List String, ss ≠ [] → ss.length ≤ (serStrList ss).length := by
  intro ss
  induction ss with
  | nil => intro h; cases h rfl
  | cons s ss ih =>
    intro _
    cases ss with
    | nil => simp [serStrList, serStr]
    | cons s2 ss2 =>
      have := ih (by simp)
      simp only [serStrList, List.length_append, List.length_cons]
      have h2 : 1 ≤ (serStr s).length := by
        simp [serStr]
      simp only [List.length_cons] at this ⊢
      omega

theorem parseArrAux_round :
    ∀ (xs : List String) (fuel : Nat) (rest : List Char), xs ≠ [] →
      xs.length ≤ fuel →
      parseArrAux fuel (serStrList xs ++ ']' :: rest) = some (xs, rest) := by
  intro xs
  induction xs with
  | nil => intro fuel rest h; cases h rfl
  | cons s ss ih =>
    intro fuel rest _ hf
    match fuel, hf with
    | f + 1, hf2 =>
      cases ss with
      | nil =>
        show parseArrAux (f + 1) (serStr s ++ ']' :: rest) = some ([s], rest)
        simp only [parseArrAux, parseStr_round s (']' :: rest)]
      | cons s2 ss2 =>
        have hr : serStrList (s :: s2 :: ss2) ++ ']' :: rest =
            serStr s ++ ',' :: ' ' :: (serStrList (s2 :: ss2) ++ ']' :: rest) := by
          simp [serStrList]
        rw [hr]
        have hrec := ih f rest (by simp) (by simp only [List.length_cons] at hf2 ⊢; omega)
        simp only [parseArrAux, parseStr_round s (',' :: ' ' :: (serStrList (s2 :: ss2) ++ ']' :: rest)), hrec]

theorem serInt_head (n : Int) :
    ∃ c cs, serInt n = c :: cs ∧ ¬c = 'n' ∧ ¬c = '"' ∧ ¬c = '[' := by
  by_cases hn : n < 0
  · refine ⟨'-', natDigits n.natAbs, ?_, by decide, by decide, by decide⟩
    rw [serInt, if_pos hn]
  · obtain ⟨c, cs, hcons⟩ := List.exists_cons_of_ne_nil (natDigits_ne_nil n.toNat)
    have hcdig : isDigitChar c = true := by
      apply natDigits_all_digits n.toNat
      rw [hcons]
      exact List.mem_cons_self c cs
    have hb := isDigitChar_bounds hcdig
    refine ⟨c, cs, by rw [serInt, if_neg hn, hcons], ?_, ?_, ?_⟩
    · intro he
      rw [he] at hb
      revert hb
      decide
    · intro he
      rw [he] at hb
      revert hb
      decide
    · intro he
      rw [he] at hb
      revert hb
      decide

theorem parseVal_round (v : JVal) (rest : List Char)
    (h : ∀ c, rest.head? = some c → isDigitChar c = false) :
    parseVal (serVal v ++ rest) = some (v, rest) := by
  cases v with
  | jnull => rfl
  | jint n =>
    obtain ⟨c, cs, hcons, h1, h2, h3⟩ := serInt_head n
    show parseVal (serInt n ++ rest) = _
    rw [hcons]
    simp only [List.cons_append, parseVal, if_neg h1, if_neg h2, if_neg h3]
    have hback : c :: (cs ++ rest) = serInt n ++ rest := by
      rw [hcons, List.cons_append]
    rw [hback, parseInt_round n rest h]
  | jstr s =>
    have hser : serVal (JVal.jstr s) ++ rest = '"' :: (escString s.data ++ ['"'] ++ rest) := by
      simp [serVal, serStr]
    rw [hser]
    simp only [parseVal, if_neg (by decide : ¬('"' : Char) = 'n'), if_pos rfl]
    have hback : ('"' : Char) :: (escString s.data ++ ['"'] ++ rest) = serStr s ++ rest := by
      simp [serStr]
    rw [hback, parseStr_round s rest, if_pos trivial]
  | jarr xs =>
    cases xs with
    | nil => rfl
    | cons s ss =>
      obtain ⟨t, ht⟩ := serStrList_head s ss
      have hser : serVal (JVal.jarr (s :: ss)) ++ rest =
          '[' :: (serStrList (s :: ss) ++ ']' :: rest) := by
        simp [serVal, serArr]
      rw [hser, ht]
      simp only [parseVal, if_neg (by decide : ¬('[' : Char) = 'n'),
        if_neg (by decide : ¬('[' : Char) = '"'), if_pos rfl,
        if_neg (by decide : ¬('"' : Char) = ']')]
      rw [← ht]
      have hlen : (s :: ss).length ≤ (serStrList (s :: ss) ++ ']' :: rest).length + 1 := by
        have := serStrList_length_ge (s :: ss) (by simp)
        simp only [List.length_append, List.length_cons] at this ⊢
        omega
      rw [parseArrAux_round (s :: ss) _ rest (by simp) hlen]
      have hcons2 : serStrList (s :: ss) ++ ']' :: rest = '"' :: (t ++ ']' :: rest) := by
        rw [ht, List.cons_append]
      rw [if_pos trivial, hcons2]
      simp

theorem serFieldsAux_head (kv : String × JVal) (fs : Record) :
    ∃ t, serFieldsAux (kv :: fs) = '"' :: t := by
  cases fs with
  | nil =>
    refine ⟨escString kv.1.data ++ ['"'] ++ ':' :: ' ' :: serVal kv.2, ?_⟩
    simp [serFieldsAux, serField, serStr]
  | cons kv2 fs2 =>
    refine ⟨escString kv.1.data ++ ['"'] ++ ':' :: ' ' :: serVal kv.2 ++
      ',' :: ' ' :: serFieldsAux (kv2 :: fs2), ?_⟩
    simp [serFieldsAux, serField, serStr]

theorem serFieldsAux_length_ge :
    ∀ fs : Record, fs ≠ [] → fs.length ≤ (serFieldsAux fs).length := by
  intro fs
  induction fs with
  | nil => intro h; cases h rfl
  | cons kv fs ih =>
    intro _
    cases fs with
    | nil => simp [serFieldsAux, serField, serStr]
    | cons kv2 fs2 =>
      have := ih (by simp)
      simp only [serFieldsAux, List.length_append, List.length_cons] at this ⊢
      have h2 : 1 ≤ (serField kv).length := by
        simp [serField, serStr]
      omega

theorem parseFieldsAux_round :
    ∀ (fs : Record) (fuel : Nat) (rest : List Char), fs ≠ [] →
      fs.length ≤ fuel →
      parseFieldsAux fuel (serFieldsAux fs ++ '}' :: rest) = some (fs, rest) := by
  intro fs
  induction fs with
  | nil => intro fuel rest h; cases h rfl
  | cons kv fs ih =>
    intro fuel rest _ hf
    match fuel, hf with
    | f + 1, hf2 =>
      cases fs with
      | nil =>
        show parseFieldsAux (f + 1)
          (serField kv ++ '}' :: rest) = some ([kv], rest)
        have hsplit : serField kv ++ '}' :: rest =
            serStr kv.1 ++ ':' :: ' ' :: (serVal kv.2 ++ '}' :: rest) := by
          simp [serField]
        rw [hsplit]
        have hval := parseVal_round kv.2 ('}' :: rest)
          (by intro c hc; simp at hc; rw [← hc]; decide)
        simp only [parseFieldsAux,
          parseStr_round kv.1 (':' :: ' ' :: (serVal kv.2 ++ '}' :: rest)), hval]
      | cons kv2 fs2 =>
        have hsplit : serFieldsAux (kv :: kv2 :: fs2) ++ '}' :: rest =
            serStr kv.1 ++ ':' :: ' ' ::
              (serVal kv.2 ++ ',' :: ' ' :: (serFieldsAux (kv2 :: fs2) ++ '}' :: rest)) := by
          simp [serFieldsAux, serField]
        rw [hsplit]
        have hval := parseVal_round kv.2
          (',' :: ' ' :: (serFieldsAux (kv2 :: fs2) ++ '}' :: rest))
          (by intro c hc; simp at hc; rw [← hc]; decide)
        have hrec := ih f rest (by simp) (by simp only [List.length_cons] at hf2 ⊢; omega)
        simp only [parseFieldsAux,
          parseStr_round kv.1 _, hval, hrec]

/-- The JSON encoding round trip: parsing the serialization of any record
returns exactly that record. -/
theorem loads_dumps (r : Record) : loads (dumps r) = some r := by
  cases r with
  | nil => rfl
  | cons kv fs =>
    obtain ⟨t, ht⟩ := serFieldsAux_head kv fs
    have hser : dumps (kv :: fs) = '{' :: (serFieldsAux (kv :: fs) ++ ['}']) := rfl
    rw [hser, ht]
    simp only [loads, if_pos rfl, if_neg (by decide : ¬('"' : Char) = '}')]
    rw [← ht]
    have hlen : (kv :: fs).length ≤ (serFieldsAux (kv :: fs) ++ ['}']).length + 1 := by
      have := serFieldsAux_length_ge (kv :: fs) (by simp)
      simp only [List.length_append, List.length_cons] at this ⊢
      omega
    have hround := parseFieldsAux_round (kv :: fs)
      ((serFieldsAux (kv :: fs) ++ ['}']).length + 1) [] (by simp) hlen
    simp only [List.append_nil] at hround
    have hconv : serFieldsAux (kv :: fs) ++ ['}'] = serFieldsAux (kv :: fs) ++ '}' :: [] := rfl
    rw [hconv, hround, if_pos trivial]
    have hcons2 : serFieldsAux (kv :: fs) ++ '}' :: [] = '"' :: (t ++ '}' :: []) := by
      rw [ht, List.cons_append]
    rw [hcons2]
    simp

end Json

/-! ## Bytes and authenticated encryption

`json.dumps(...).encode("utf-8")` turns text into bytes; here each Unicode
code point becomes a fixed-width big-endian 3-byte group (a canonical,
reversible byte encoding; code points are below `2^24`). -/

/-- Fixed-width 3-byte encoding of one code point. -/
def charBytes (c : Char) : List Nat :=
  [c.toNat / 65536, c.toNat / 256 % 256, c.toNat % 256]

def encodeChars : List Char → List Nat
  | [] => []
  | c :: cs => charBytes c ++ encodeChars cs

def decodeBytes : List Nat → Option (List Char)
  | [] => some []
  | b2 :: b1 :: b0 :: bs =>
    let n := b2 * 65536 + b1 * 256 + b0
    if n.isValidChar then
      match decodeBytes bs with
      | some cs => some (Char.ofNat n :: cs)
      | none => none
    else none
  | _ => none

theorem charBytes_lt (c : Char) : ∀ b ∈ charBytes c, b < 256 := by
  intro b hb
  have h := Json.char_toNat_lt c
  simp only [charBytes, List.mem_cons, List.not_mem_nil, or_false] at hb
  rcases hb with h1 | h1 | h1 <;> subst h1 <;> omega

theorem encodeChars_lt : ∀ cs : List Char, ∀ b ∈ encodeChars cs, b < 256 := by
  intro cs
  induction cs with
  | nil => intro b hb; cases hb
  | cons c cs ih =>
    intro b hb
    rcases List.mem_append.mp hb with h | h
    · exact charBytes_lt c b h
    · exact ih b h

theorem decodeBytes_encodeChars : ∀ cs : List Char, decodeBytes (encodeChars cs) = some cs := by
  intro cs
  induction cs with
  | nil => rfl
  | cons c cs ih =>
    show decodeBytes (c.toNat / 65536 :: c.toNat / 256 % 256 :: c.toNat % 256 ::
      encodeChars cs) = some (c :: cs)
    rw [decodeBytes]
    have hn : c.toNat / 65536 * 65536 + c.toNat / 256 % 256 * 256 + c.toNat % 256 =
        c.toNat := by omega
    simp only [hn, if_pos (Json.char_valid c), ih, Json.char_ofNat_toNat]

/-! ### Authenticated encryption (the Fernet primitive)

Modelled from the spec: "authenticated symmetric encryption (confidentiality
+ integrity)" with a fresh nonce per call and an authentication tag over the
whole payload, verified on decrypt. The `cryptography.fernet` library is not
part of the repository. Bytes are values below 256; the tag is kept as one
final element of the blob. -/

/-- Modelled from the spec: one keystream byte, a deterministic function of
key, nonce and position. -/
def keystream (key iv i : Nat) : Nat := Nat.pair key (Nat.pair iv i) % 256

def xorStream (key iv : Nat) : Nat → List Nat → List Nat
  | _, [] => []
  | i, b :: bs => (b ^^^ keystream key iv i) :: xorStream key iv (i + 1) bs

def macAcc (a : Nat) (payload : List Nat) : Nat :=
  payload.foldl (fun x b => x * 256 + b) a

/-- Modelled from the spec: the authentication tag over the whole payload;
an ideal MAC, injective on equal-length byte payloads. -/
def macOf (key : Nat) (payload : List Nat) : Nat := macAcc (key % 256 + 1) payload

/-- Modelled from the spec: `Fernet(key).encrypt` — nonce-derived IV byte,
keystream-masked message, authentication tag appended. -/
def fernet_encrypt (key nonce : Nat) (msg : List Nat) : List Nat :=
  let iv := nonce % 256
  let payload := iv :: xorStream key iv 0 msg
  payload ++ [macOf key payload]

/-- Modelled from the spec: `Fernet(key).decrypt` — recompute the tag over
the payload and reject the blob unless it matches. -/
def fernet_decrypt (key : Nat) (blob : List Nat) : Option (List Nat) :=
  match blob.getLast? with
  | none => none
  | some mac =>
    match blob.dropLast with
    | [] => none
    | iv :: ct =>
      if macOf key (iv :: ct) = mac then some (xorStream key iv 0 ct) else none

theorem xorStream_involutive (key iv : Nat) :
    ∀ (bs : List Nat) (i : Nat), xorStream key iv i (xorStream key iv i bs) = bs := by
  intro bs
  induction bs with
  | nil => intro i; rfl
  | cons b t ih =>
    intro i
    show (b ^^^ keystream key iv i ^^^ keystream key iv i) ::
      xorStream key iv (i + 1) (xorStream key iv (i + 1) t) = b :: t
    rw [Nat.xor_cancel_right, ih]

/-- Decrypting with the right key undoes encryption. -/
theorem fernet_round_trip (key nonce : Nat) (msg : List Nat) :
    fernet_decrypt key (fernet_encrypt key nonce msg) = some msg := by
  rw [fernet_encrypt, fernet_decrypt]
  rw [List.getLast?_concat, List.dropLast_concat]
  show (if macOf key ((nonce % 256) :: xorStream key (nonce % 256) 0 msg) =
      macOf key ((nonce % 256) :: xorStream key (nonce % 256) 0 msg)
    then some (xorStream key (nonce % 256) 0 (xorStream key (nonce % 256) 0 msg))
    else none) = some msg
  rw [if_pos rfl, xorStream_involutive]

theorem macAcc_inj :
    ∀ (t1 t2 : List Nat) (a1 a2 : Nat), t1.length = t2.length →
      (∀ b ∈ t1, b < 256) → (∀ b ∈ t2, b < 256) →
      macAcc a1 t1 = macAcc a2 t2 → a1 = a2 ∧ t1 = t2 := by
  intro t1
  induction t1 with
  | nil =>
    intro t2 a1 a2 hlen _ _ hm
    cases t2 with
    | nil => exact ⟨hm, rfl⟩
    | cons c s => simp at hlen
  | cons c1 s1 ih =>
    intro t2 a1 a2 hlen h1 h2 hm
    cases t2 with
    | nil => simp at hlen
    | cons c2 s2 =>
      have hlen2 : s1.length = s2.length := by
        simpa using hlen
      have hs1 : ∀ b ∈ s1, b < 256 := fun b hb => h1 b (List.mem_cons_of_mem c1 hb)
      have hs2 : ∀ b ∈ s2, b < 256 := fun b hb => h2 b (List.mem_cons_of_mem c2 hb)
      have hm2 : macAcc (a1 * 256 + c1) s1 = macAcc (a2 * 256 + c2) s2 := hm
      obtain ⟨hacc, htail⟩ := ih s2 (a1 * 256 + c1) (a2 * 256 + c2) hlen2 hs1 hs2 hm2
      have hc1 : c1 < 256 := h1 c1 (List.mem_cons_self c1 s1)
      have hc2 : c2 < 256 := h2 c2 (List.mem_cons_self c2 s2)
      have ha : a1 = a2 := by omega
      have hc : c1 = c2 := by omega
      exact ⟨ha, by rw [hc, htail]⟩

theorem macOf_inj (key : Nat) {l1 l2 : List Nat} (hlen : l1.length = l2.length)
    (h1 : ∀ b ∈ l1, b < 256) (h2 : ∀ b ∈ l2, b < 256)
    (hm : macOf key l1 = macOf key l2) : l1 = l2 :=
  (macAcc_inj l1 l2 _ _ hlen h1 h2 hm).2

theorem keystream_lt (key iv i : Nat) : keystream key iv i < 256 :=
  Nat.mod_lt _ (by omega)

theorem xorStream_lt (key iv : Nat) :
    ∀ (bs : List Nat) (i : Nat), (∀ b ∈ bs, b < 256) →
      ∀ b ∈ xorStream key iv i bs, b < 256 := by
  intro bs
  induction bs with
  | nil => intro i _ b hb; cases hb
  | cons c t ih =>
    intro i h b hb
    rcases List.mem_cons.mp hb with hb1 | hb1
    · rw [hb1]
      have h1 : c < 256 := h c (List.mem_cons_self c t)
      have h2 := keystream_lt key iv i
      have h256 : (256 : Nat) = 2 ^ 8 := by norm_num
      rw [h256] at h1 h2 ⊢
      exact Nat.xor_lt_two_pow h1 h2
    · exact ih (i + 1) (fun x hx => h x (List.mem_cons_of_mem c hx)) b hb1

/-- Every byte of the encrypted payload (IV and ciphertext) is below 256. -/
theorem fernet_payload_lt (key nonce : Nat) (msg : List Nat) (hmsg : ∀ b ∈ msg, b < 256) :
    ∀ b ∈ (nonce % 256) :: xorStream key (nonce % 256) 0 msg, b < 256 := by
  intro b hb
  rcases List.mem_cons.mp hb with hb1 | hb1
  · rw [hb1]
    exact Nat.mod_lt _ (by omega)
  · exact xorStream_lt key (nonce % 256) msg 0 hmsg b hb1

/-- Tampering with any single byte of a Fernet blob makes decryption fail:
the recomputed tag no longer matches. -/
theorem fernet_tamper (key nonce : Nat) (msg : List Nat) (i v : Nat)
    (hmsg : ∀ b ∈ msg, b < 256)
    (hi : i < (fernet_encrypt key nonce msg).length) (hv : v < 256)
    (hne : v ≠ (fernet_encrypt key nonce msg).getD i 0) :
    fernet_decrypt key ((fernet_encrypt key nonce msg).set i v) = none := by
  have hplt := fernet_payload_lt key nonce msg hmsg
  have henc : fernet_encrypt key nonce msg =
      ((nonce % 256) :: xorStream key (nonce % 256) 0 msg) ++
        [macOf key ((nonce % 256) :: xorStream key (nonce % 256) 0 msg)] := rfl
  rw [henc] at hi hne ⊢
  generalize hC : xorStream key (nonce % 256) 0 msg = C at hi hne hplt ⊢
  generalize hIV : nonce % 256 = iv at hi hne hplt ⊢
  by_cases hcase : i < (iv :: C).length
  · -- a payload byte was flipped
    rw [List.set_append, if_pos hcase]
    rw [List.getD_append _ _ _ _ hcase] at hne
    rw [fernet_decrypt, List.getLast?_concat, List.dropLast_concat]
    have hne_list : (iv :: C).set i v ≠ iv :: C := by
      intro he
      apply hne
      have h1 : ((iv :: C).set i v)[i]? = some v := List.getElem?_set_self hcase
      rw [he] at h1
      rw [List.getD_eq_getElem?_getD, h1]
      rfl
    have hset_lt : ∀ b ∈ (iv :: C).set i v, b < 256 := by
      intro b hb
      rcases List.mem_or_eq_of_mem_set hb with h | h
      · exact hplt b h
      · rw [h]; exact hv
    obtain ⟨iv2, ct2, hcons⟩ : ∃ iv2 ct2, (iv :: C).set i v = iv2 :: ct2 := by
      cases hs : (iv :: C).set i v with
      | nil =>
        have hlen2 := congrArg List.length hs
        rw [List.length_set] at hlen2
        simp at hlen2
      | cons a t => exact ⟨a, t, rfl⟩
    rw [hcons]
    show (if macOf key (iv2 :: ct2) = macOf key (iv :: C)
      then some (xorStream key iv2 0 ct2) else none) = none
    rw [if_neg]
    intro hmac
    apply hne_list
    rw [hcons]
    apply macOf_inj key _ _ hplt hmac
    · rw [← hcons, List.length_set]
    · rw [← hcons]
      exact hset_lt
  · -- the tag itself was flipped
    have hilen : i < (iv :: C).length + 1 := by
      rw [List.length_append] at hi
      simpa using hi
    have hieq : i = (iv :: C).length := by omega
    rw [List.set_append, if_neg hcase, hieq, Nat.sub_self]
    rw [hieq, List.getD_append_right _ _ _ _ (Nat.le_refl _), Nat.sub_self] at hne
    simp only [List.getD] at hne
    show fernet_decrypt key ((iv :: C) ++ [v]) = none
    rw [fernet_decrypt, List.getLast?_concat, List.dropLast_concat]
    show (if macOf key (iv :: C) = v then some (xorStream key iv 0 C) else none) = none
    rw [if_neg]
    intro hmac
    exact hne (by rw [← hmac]; rfl)

/-! ## Entity models (`src/tudu/models.py`) -/

/-- `TaskStatus` (`models.py` lines 12-41). -/
inductive TaskStatus where
  | todo
  | in_progress
  | done
  | cancelled
deriving DecidableEq

/-- The enum's string value. -/
def TaskStatus.value : TaskStatus → String
  | .todo => "todo"
  | .in_progress => "in_progress"
  | .done => "done"
  | .cancelled => "cancelled"

/-- `TaskStatus(s)`: Python enum lookup by value, `ValueError` (here `none`)
for any other string. -/
def TaskStatus.fromValue : String → Option TaskStatus
  | "todo" => some .todo
  | "in_progress" => some .in_progress
  | "done" => some .done
  | "cancelled" => some .cancelled
  | _ => none

/-- `Task` (`models.py` lines 75-156). Timestamps are ISO-8601 strings, as
in the source. -/
structure Task where
  title : String
  project_id : String
  story_points : Int
  status : TaskStatus
  description : String
  tags : List String
  id : String
  created_at : String
  updated_at : String
  completed_at : Option String
  position : Int
deriving DecidableEq

/-- `Task.is_complete`: status in (DONE, CANCELLED). -/
def Task.is_complete (t : Task) : Bool :=
  t.status == TaskStatus.done || t.status == TaskStatus.cancelled

/-- `Task.toggle_status`: the two `datetime.now()` calls are the `now`
(completion time) and `now2` (update time) arguments. -/
def Task.toggle_status (t : Task) (now now2 : String) : Task :=
  if t.status = TaskStatus.done then
    { t with status := .todo, completed_at := none, updated_at := now2 }
  else
    { t with status := .done, completed_at := some now, updated_at := now2 }

/-- The successor in `Task.cycle_status`'s cycle dictionary. -/
def TaskStatus.cycle_next : TaskStatus → TaskStatus
  | .todo => .in_progress
  | .in_progress => .done
  | .done => .todo
  | .cancelled => .todo

/-- `Task.cycle_status`. -/
def Task.cycle_status (t : Task) (now now2 : String) : Task :=
  let s := t.status.cycle_next
  if s = TaskStatus.done then
    { t with status := s, completed_at := some now, updated_at := now2 }
  else
    { t with status := s, completed_at := none, updated_at := now2 }

/-- `Task.to_dict`. -/
def Task.to_dict (t : Task) : Record :=
  [("id", .jstr t.id), ("title", .jstr t.title), ("project_id", .jstr t.project_id),
   ("story_points", .jint t.story_points), ("status", .jstr t.status.value),
   ("description", .jstr t.description), ("tags", .jarr t.tags),
   ("created_at", .jstr t.created_at), ("updated_at", .jstr t.updated_at),
   ("completed_at", match t.completed_at with | none => .jnull | some s => .jstr s),
   ("position", .jint t.position)]

/-- Python dict lookup on a parsed record (keys are unique in a dict, so
first match suffices). -/
def Record.lookup : Record → String → Option JVal
  | [], _ => none
  | (k, v) :: rest, key => if k = key then some v else Record.lookup rest key

/-- `data[k]` expecting a string: `KeyError` (here `none`) when absent.
Python checks no types at runtime; a value of another shape could not
inhabit the typed field and is rejected here. -/
def Record.reqStr (r : Record) (k : String) : Option String :=
  match r.lookup k with
  | some (.jstr s) => some s
  | _ => none

/-- `data.get(k, d)` expecting a string. -/
def Record.getStrD (r : Record) (k : String) (d : String) : Option String :=
  match r.lookup k with
  | none => some d
  | some (.jstr s) => some s
  | some _ => none

/-- `data.get(k, d)` expecting an integer. -/
def Record.getIntD (r : Record) (k : String) (d : Int) : Option Int :=
  match r.lookup k with
  | none => some d
  | some (.jint n) => some n
  | some _ => none

/-- `data.get(k, d)` expecting a list of strings. -/
def Record.getArrD (r : Record) (k : String) (d : List String) : Option (List String) :=
  match r.lookup k with
  | none => some d
  | some (.jarr xs) => some xs
  | some _ => none

/-- `data.get(k)` expecting a nullable string (absent and null both give
Python `None`). -/
def Record.getOptStr (r : Record) (k : String) : Option (Option String) :=
  match r.lookup k with
  | none => some none
  | some .jnull => some none
  | some (.jstr s) => some (some s)
  | some _ => none

/-- `Task.from_dict`; `now` is the `datetime.now()` default for missing
timestamps. -/
def Task.from_dict (now : String) (r : Record) : Option Task := do
  let id ← r.reqStr "id"
  let title ← r.reqStr "title"
  let project_id ← r.reqStr "project_id"
  let story_points ← r.getIntD "story_points" 1
  let statusStr ← r.getStrD "status" "todo"
  let status ← TaskStatus.fromValue statusStr
  let description ← r.getStrD "description" ""
  let tags ← r.getArrD "tags" []
  let created_at ← r.getStrD "created_at" now
  let updated_at ← r.getStrD "updated_at" now
  let completed_at ← r.getOptStr "completed_at"
  let position ← r.getIntD "position" 0
  pure { title, project_id, story_points, status, description, tags, id,
         created_at, updated_at, completed_at, position }

/-- `Project` (`models.py` lines 159-188). -/
structure Project where
  name : String
  description : String
  id : String
  created_at : String
  color : String
deriving DecidableEq

/-- `Project.to_dict`. -/
def Project.to_dict (p : Project) : Record :=
  [("id", .jstr p.id), ("name", .jstr p.name), ("description", .jstr p.description),
   ("created_at", .jstr p.created_at), ("color", .jstr p.color)]

/-- `Project.from_dict`. -/
def Project.from_dict (now : String) (r : Record) : Option Project := do
  let id ← r.reqStr "id"
  let name ← r.reqStr "name"
  let description ← r.getStrD "description" ""
  let created_at ← r.getStrD "created_at" now
  let color ← r.getStrD "color" "#61afef"
  pure { name, description, id, created_at, color }

/-! ## The storage codec (`Storage._encrypt` / `Storage._decrypt`) -/

namespace Storage

/-- `Storage._encrypt`: serialize the record and encrypt the bytes. -/
def encrypt (key nonce : Nat) (data : Record) : List Nat :=
  fernet_encrypt key nonce (encodeChars (Json.dumps data))

/-- `Storage._decrypt`: decrypt the blob, decode and parse the bytes.
`none` is the `DecryptError` of the spec (authentication failure or
malformed plaintext). -/
def decrypt (key : Nat) (blob : List Nat) : Option Record :=
  match fernet_decrypt key blob with
  | none => none
  | some bytes =>
    match decodeBytes bytes with
    | none => none
    | some chars => Json.loads chars

end Storage

theorem TaskStatus.fromValue_value (s : TaskStatus) :
    TaskStatus.fromValue s.value = some s := by
  cases s <;> rfl

theorem task_from_dict_to_dict (t : Task) (now : String) :
    Task.from_dict now (Task.to_dict t) = some t := by
  cases t with
  | mk title project_id story_points status description tags id created_at
      updated_at completed_at position =>
    cases status <;> cases completed_at <;>
      simp [Task.from_dict, Task.to_dict, Record.reqStr, Record.getStrD,
        Record.getIntD, Record.getArrD, Record.getOptStr, Record.lookup,
        TaskStatus.fromValue, TaskStatus.value]

theorem project_from_dict_to_dict (p : Project) (now : String) :
    Project.from_dict now (Project.to_dict p) = some p := by
  cases p with
  | mk name description id created_at color =>
    simp [Project.from_dict, Project.to_dict, Record.reqStr, Record.getStrD,
      Record.lookup]

/-! ## The storage engine (`src/tudu/storage.py`)

The database is two tables of rows kept in rowid (insertion) order.
`project_id` of a task row is stored in the clear for filtering; the full
record payload is an encrypted blob. -/

structure DB where
  projects : List (String × List Nat)
  tasks : List (String × String × List Nat)
deriving DecidableEq

/-- Errors a read can raise: `DecryptError` (authentication failure or
malformed serialized bytes) and a malformed record (`KeyError` /
`ValueError` out of `from_dict`). -/
inductive StorageError where
  | decryptError
  | badRecord
deriving DecidableEq

namespace Storage

/-- `save_project`: INSERT OR REPLACE — a conflicting row is deleted and
the new row inserted with a fresh rowid (at the end). -/
def save_project (key nonce : Nat) (p : Project) (db : DB) : DB :=
  { db with projects := db.projects.filter (fun row => row.1 ≠ p.id) ++
      [(p.id, encrypt key nonce p.to_dict)] }

/-- `get_project`: decode the row found by id, `none` when absent. -/
def get_project (key : Nat) (now : String) (project_id : String) (db : DB) :
    Except StorageError (Option Project) :=
  match db.projects.find? (fun row => row.1 = project_id) with
  | none => .ok none
  | some row =>
    match decrypt key row.2 with
    | none => .error .decryptError
    | some r =>
      match Project.from_dict now r with
      | none => .error .badRecord
      | some p => .ok (some p)

/-- The first statement of `delete_project`:
`DELETE FROM tasks WHERE project_id = ?`. -/
def delete_project_tasks (project_id : String) (db : DB) : DB :=
  { db with tasks := db.tasks.filter (fun row => row.2.1 ≠ project_id) }

/-- `delete_project`: tasks first, then the project row. -/
def delete_project (project_id : String) (db : DB) : DB :=
  let db1 := delete_project_tasks project_id db
  { db1 with projects := db1.projects.filter (fun row => row.1 ≠ project_id) }

/-- `save_task`: INSERT OR REPLACE by id. -/
def save_task (key nonce : Nat) (t : Task) (db : DB) : DB :=
  { db with tasks := db.tasks.filter (fun row => row.1 ≠ t.id) ++
      [(t.id, t.project_id, encrypt key nonce t.to_dict)] }

/-- `get_task`. -/
def get_task (key : Nat) (now : String) (task_id : String) (db : DB) :
    Except StorageError (Option Task) :=
  match db.tasks.find? (fun row => row.1 = task_id) with
  | none => .ok none
  | some row =>
    match decrypt key row.2.2 with
    | none => .error .decryptError
    | some r =>
      match Task.from_dict now r with
      | none => .error .badRecord
      | some t => .ok (some t)

/-- `SELECT data FROM tasks [WHERE project_id = ?]`; Python's
`if project_id:` is false both for `None` and for `""`. -/
def task_rows (project_id : Option String) (db : DB) :
    List (String × String × List Nat) :=
  match project_id with
  | some pid =>
    if pid = "" then db.tasks else db.tasks.filter (fun row => row.2.1 = pid)
  | none => db.tasks

/-- Decrypt one task row (`Task.from_dict(self._decrypt(row[0]))`). -/
def decrypt_task_row (key : Nat) (now : String)
    (row : String × String × List Nat) : Except StorageError Task :=
  match decrypt key row.2.2 with
  | none => .error .decryptError
  | some r =>
    match Task.from_dict now r with
    | none => .error .badRecord
    | some t => .ok t

/-- Decrypt every selected row, aborting on the first failure (the list
comprehension raises on the first bad row). -/
def decrypt_task_rows (key : Nat) (now : String) :
    List (String × String × List Nat) → Except StorageError (List Task)
  | [] => .ok []
  | row :: rest =>
    match decrypt_task_row key now row with
    | .error e => .error e
    | .ok t =>
      match decrypt_task_rows key now rest with
      | .error e => .error e
      | .ok ts => .ok (t :: ts)

end Storage

/-- Lexicographic non-strict comparison of integer lists. Python compares
tuples and strings exactly this way (first difference decides; a strict
prefix is smaller). -/
def listLeb : List Int → List Int → Bool
  | [], _ => true
  | _ :: _, [] => false
  | a :: as, b :: bs => if a < b then true else if b < a then false else listLeb as bs

/-- Python's `<=` on the `created_at` strings: lexicographic by code point. -/
def strLeb (s t : String) : Bool :=
  listLeb (s.data.map (fun c => (c.toNat : Int))) (t.data.map (fun c => (c.toNat : Int)))

/-- The sort key of `list_tasks`:
`(t.is_complete, -t.story_points, t.position, t.created_at)`, flattened into
one integer list (the three leading components have fixed width, so tuple
order and flattened-list order agree; False < True in Python). -/
def sort_key (t : Task) : List Int :=
  (if t.is_complete then 1 else 0) :: (-t.story_points) :: t.position ::
    t.created_at.data.map (fun c => (c.toNat : Int))

def task_le (t u : Task) : Prop := listLeb (sort_key t) (sort_key u) = true

instance task_le_decidable : DecidableRel task_le := fun t u =>
  inferInstanceAs (Decidable (listLeb (sort_key t) (sort_key u) = true))

namespace Storage

/-- `list_tasks`: decrypt the selected rows; when `sort_by_points` is true,
stable sort ascending by `sort_key` (Python's `list.sort(key=...)` is a
stable sort by key, realized here by a stable insertion sort). -/
def list_tasks (key : Nat) (now : String) (project_id : Option String)
    (sort_by_points : Bool) (db : DB) : Except StorageError (List Task) :=
  match decrypt_task_rows key now (task_rows project_id db) with
  | .error e => .error e
  | .ok tasks =>
    .ok (if sort_by_points then List.insertionSort task_le tasks else tasks)

/-- `delete_task`: `DELETE FROM tasks WHERE id = ?`. -/
def delete_task (task_id : String) (db : DB) : DB :=
  { db with tasks := db.tasks.filter (fun row => row.1 ≠ task_id) }

/-- `get_next_position`: `max(t.position for t in tasks) + 1`, `0` when the
project has no tasks. -/
def get_next_position (key : Nat) (now : String) (project_id : String)
    (db : DB) : Except StorageError Int :=
  match list_tasks key now (some project_id) false db with
  | .error e => .error e
  | .ok tasks =>
    match tasks with
    | [] => .ok 0
    | t :: ts => .ok ((ts.map Task.position).foldl max t.position + 1)

/-- The dictionary `get_project_stats` returns; the completion percentage
is an exact rational (Python computes it in floating point). -/
structure Stats where
  total_tasks : Nat
  done_tasks : Nat
  in_progress_tasks : Nat
  todo_tasks : Int
  total_points : Int
  done_points : Int
  completion_pct : Rat
deriving DecidableEq

/-- `get_project_stats`: counts via `sum(1 for t in tasks if ...)` (the
length of the matching sublist), sums of story points, derived todo count,
and `done_points / total_points * 100` guarded by `if total_points`. -/
def get_project_stats (key : Nat) (now : String) (project_id : String)
    (db : DB) : Except StorageError Stats :=
  match list_tasks key now (some project_id) false db with
  | .error e => .error e
  | .ok tasks =>
    let total := tasks.length
    let done := (tasks.filter (fun t => t.status.value == "done")).length
    let in_progress := (tasks.filter (fun t => t.status.value == "in_progress")).length
    let total_points := (tasks.map Task.story_points).sum
    let done_points :=
      ((tasks.filter (fun t => t.status.value == "done")).map Task.story_points).sum
    .ok { total_tasks := total, done_tasks := done, in_progress_tasks := in_progress,
          todo_tasks := (total : Int) - done - in_progress,
          total_points := total_points, done_points := done_points,
          completion_pct :=
            if total_points = 0 then 0
            else (done_points : Rat) / (total_points : Rat) * 100 }

end Storage

/-! ## The key manager (`_get_or_create_key`, `storage.py` lines 27-65) -/

/-- The data directory's key material: contents of `.tudu_key` and
`.tudu_salt` when the files exist. -/
structure KeyDir where
  keyFile : Option (List Nat)
  saltFile : Option (List Nat)
deriving DecidableEq

/-- The error taxonomy the spec names for key initialization. -/
inductive KeyInitError where
  | storageInit
  | keyCorrupt
deriving DecidableEq

/-- Modelled from the spec: PBKDF2-HMAC-SHA256 over the master secret with
the salt — a deterministic function of (master, salt); the KDF's internals
live in the `cryptography` library, outside this repository. -/
def kdfDerive (master salt : List Nat) : List Nat :=
  [macAcc 7 (master ++ 257 :: salt)]

/-- `_get_or_create_key`: read the master key file if it exists (else
generate and write `freshMaster`), likewise the salt, then derive. The
return type is `Except` so the spec's claimed failure mode is statable;
the code validates nothing and never raises on existing file contents. -/
def get_or_create_key (freshMaster freshSalt : List Nat) (d : KeyDir) :
    Except KeyInitError (List Nat × KeyDir) :=
  let master := d.keyFile.getD freshMaster
  let d1 : KeyDir := { d with keyFile := some master }
  let salt := d1.saltFile.getD freshSalt
  let d2 : KeyDir := { d1 with saltFile := some salt }
  .ok (kdfDerive master salt, d2)

/-- The ordering C4 describes for `list_tasks(sort_by_points=True)`:
incomplete before complete/cancelled, then descending story points, then
ascending position, then ascending creation timestamp. -/
def claim_order (t u : Task) : Prop :=
  (t.is_complete = false ∧ u.is_complete = true) ∨
  (t.is_complete = u.is_complete ∧
    (u.story_points < t.story_points ∨
      (t.story_points = u.story_points ∧
        (t.position < u.position ∨
          (t.position = u.position ∧ strLeb t.created_at u.created_at = true)))))

/-! ## Concrete fixtures used by the witnesses -/

def wTask (theId : String) (pts : Int) (st : TaskStatus) (pos : Int) : Task :=
  { title := "t", project_id := "p", story_points := pts, status := st,
    description := "", tags := [], id := theId,
    created_at := "2024-01-01T00:00:00", updated_at := "2024-01-01T00:00:00",
    completed_at := none, position := pos }

def wEmptyDb : DB := { projects := [], tasks := [] }

def wDb2 : DB :=
  Storage.save_task 3 7 (wTask "t2" 13 .todo 1)
    (Storage.save_task 3 5 (wTask "t1" 5 .todo 0) wEmptyDb)

def wDbStats : DB :=
  Storage.save_task 3 7 (wTask "t2" 5 .todo 1)
    (Storage.save_task 3 5 (wTask "t1" 3 .done 0) wEmptyDb)

def wDb3 : DB :=
  Storage.save_task 3 9 (wTask "t3" 1 .todo 2)
    (Storage.save_task 3 7 (wTask "t2" 2 .todo 1)
      (Storage.save_task 3 5 (wTask "t1" 3 .todo 0) wEmptyDb))

def wDb5 : DB :=
  { projects := [("p", [0]), ("q", [1])],
    tasks := [("t1", "p", [2]), ("t2", "q", [3]), ("t3", "p", [4])] }

def wDb7 : DB := Storage.save_task 3 5 (wTask "t1" 2 .todo 0) wEmptyDb

def wStatsTasks : List Task := [wTask "t1" 3 .done 0, wTask "t2" 5 .todo 1]

def wTs7 : List Task := [wTask "t1" 3 .todo 0, wTask "t3" 1 .todo 2]

instance instDecEqExcept {ε α : Type} [DecidableEq ε] [DecidableEq α] :
    DecidableEq (Except ε α) := fun a b =>
  match a, b with
  | .ok x, .ok y =>
    if h : x = y then isTrue (by rw [h]) else isFalse (fun he => by cases he; exact h rfl)
  | .error x, .error y =>
    if h : x = y then isTrue (by rw [h]) else isFalse (fun he => by cases he; exact h rfl)
  | .ok _, .error _ => isFalse (fun he => by cases he)
  | .error _, .ok _ => isFalse (fun he => by cases he)

/-! ## Order facts for the sort key -/

theorem listLeb_refl : ∀ a : List Int, listLeb a a = true := by
  intro a
  induction a with
  | nil => rfl
  | cons x xs ih =>
    simp only [listLeb, lt_irrefl, if_false, ih]

theorem listLeb_total : ∀ a b : List Int, listLeb a b = true ∨ listLeb b a = true := by
  intro a
  induction a with
  | nil => intro b; left; rfl
  | cons x xs ih =>
    intro b
    cases b with
    | nil => right; rfl
    | cons y ys =>
      simp only [listLeb]
      rcases lt_trichotomy x y with h | h | h
      · left
        rw [if_pos h]
      · subst h
        simp only [lt_irrefl, if_false]
        exact ih ys
      · right
        rw [if_pos h]

theorem listLeb_trans :
    ∀ a b c : List Int, listLeb a b = true → listLeb b c = true →
      listLeb a c = true := by
  intro a
  induction a with
  | nil => intro b c _ _; rfl
  | cons x xs ih =>
    intro b c hab hbc
    cases b with
    | nil => simp [listLeb] at hab
    | cons y ys =>
      cases c with
      | nil => simp [listLeb] at hbc
      | cons z zs =>
        simp only [listLeb] at hab hbc ⊢
        split_ifs at hab hbc ⊢ <;>
          first
          | rfl
          | omega
          | (exact ih ys zs hab hbc)

instance task_le_total : IsTotal Task task_le :=
  ⟨fun a b => listLeb_total (sort_key a) (sort_key b)⟩

instance task_le_trans : IsTrans Task task_le :=
  ⟨fun a b c => listLeb_trans (sort_key a) (sort_key b) (sort_key c)⟩

/-! ## Row lookup helpers -/

theorem find?_filter_append_self {α : Type} (l : List α) (p : α → Bool)
    (row : α) (hrow : p row = true) :
    ((l.filter (fun x => !p x)) ++ [row]).find? p = some row := by
  induction l with
  | nil => simp [List.find?, hrow]
  | cons a t ih =>
    by_cases ha : p a = true
    · simp only [List.filter, ha, Bool.not_true]
      exact ih
    · have ha2 : p a = false := by
        cases h : p a
        · rfl
        · exact absurd h ha
      simp only [List.filter, ha2, Bool.not_false, List.cons_append, List.find?, ha2]
      exact ih

theorem find?_none_of_all {α : Type} (l : List α) (p : α → Bool)
    (h : ∀ x ∈ l, p x = false) : l.find? p = none := by
  induction l with
  | nil => rfl
  | cons a t ih =>
    rw [List.find?, h a (List.mem_cons_self a t)]
    exact ih fun x hx => h x (List.mem_cons_of_mem a hx)

/-! ## C1: codec round trip -/

theorem storage_codec_round_trip (key nonce : Nat) (r : Record) :
    Storage.decrypt key (Storage.encrypt key nonce r) = some r := by
  rw [Storage.encrypt, Storage.decrypt, fernet_round_trip]
  show (match decodeBytes (encodeChars (Json.dumps r)) with
    | none => none
    | some chars => Json.loads chars) = some r
  rw [decodeBytes_encodeChars]
  exact Json.loads_dumps r

/-- C1: for every valid record `r` (string-keyed map of JSON-compatible
values), decrypting the result of encrypting `r` with the same key returns
a record equal to `r`, whatever fresh nonce the encryption call drew. -/
theorem encrypt_decrypt_round_trip (key nonce : Nat) (r : Record) :
    Storage.decrypt key (Storage.encrypt key nonce r) = some r :=
  storage_codec_round_trip key nonce r

/-! ## C3: tamper detection -/

/-- C3: flipping any single byte of a blob produced by `encrypt` (replacing
the byte at any position `i` by any different byte value `v`) makes
`decrypt` fail; it never returns a record. -/
theorem decrypt_tamper_detects (key nonce : Nat) (r : Record) (i v : Nat)
    (hi : i < (Storage.encrypt key nonce r).length) (hv : v < 256)
    (hne : v ≠ (Storage.encrypt key nonce r).getD i 0) :
    Storage.decrypt key ((Storage.encrypt key nonce r).set i v) = none := by
  rw [Storage.encrypt] at hi hne ⊢
  rw [Storage.decrypt]
  rw [fernet_tamper key nonce _ i v (encodeChars_lt _) hi hv hne]

/-! ## C9: completed_at tracks DONE -/

/-- C9: after any `toggle_status` or `cycle_status`, `completed_at` is
non-null exactly when the resulting status is DONE, from any of the four
starting statuses. -/
theorem status_completed_at_invariant (t : Task) (now now2 : String) :
    ((t.toggle_status now now2).completed_at.isSome = true ↔
      (t.toggle_status now now2).status = TaskStatus.done) ∧
    ((t.cycle_status now now2).completed_at.isSome = true ↔
      (t.cycle_status now now2).status = TaskStatus.done) := by
  cases h : t.status <;>
    simp [Task.toggle_status, Task.cycle_status, TaskStatus.cycle_next, h]

/-! ## C10: serialization round trip and save/get -/

/-- C10: deserializing the serialized form of any task or project
reconstructs it field for field, and a `save_task`/`save_project` followed
by a get of the same id returns an equal entity. -/
theorem serialization_round_trip (t : Task) (p : Project) (now : String)
    (key nonce : Nat) (db : DB) :
    Task.from_dict now (Task.to_dict t) = some t ∧
    Project.from_dict now (Project.to_dict p) = some p ∧
    Storage.get_task key now t.id (Storage.save_task key nonce t db) =
      .ok (some t) ∧
    Storage.get_project key now p.id (Storage.save_project key nonce p db) =
      .ok (some p) := by
  refine ⟨task_from_dict_to_dict t now, project_from_dict_to_dict p now, ?_, ?_⟩
  · rw [Storage.save_task, Storage.get_task]
    have hfind : ((db.tasks.filter (fun row => row.1 ≠ t.id)) ++
        [(t.id, t.project_id, Storage.encrypt key nonce t.to_dict)]).find?
          (fun row => row.1 = t.id) =
        some (t.id, t.project_id, Storage.encrypt key nonce t.to_dict) := by
      simp
    rw [hfind]
    show (match Storage.decrypt key (Storage.encrypt key nonce t.to_dict) with
      | none => Except.error StorageError.decryptError
      | some r =>
        match Task.from_dict now r with
        | none => Except.error StorageError.badRecord
        | some t2 => Except.ok (some t2)) = Except.ok (some t)
    rw [storage_codec_round_trip]
    show (match Task.from_dict now t.to_dict with
      | none => Except.error StorageError.badRecord
      | some t2 => Except.ok (some t2)) = Except.ok (some t)
    rw [task_from_dict_to_dict t now]
  · rw [Storage.save_project, Storage.get_project]
    have hfind : ((db.projects.filter (fun row => row.1 ≠ p.id)) ++
        [(p.id, Storage.encrypt key nonce p.to_dict)]).find?
          (fun row => row.1 = p.id) =
        some (p.id, Storage.encrypt key nonce p.to_dict) := by
      simp
    rw [hfind]
    show (match Storage.decrypt key (Storage.encrypt key nonce p.to_dict) with
      | none => Except.error StorageError.decryptError
      | some r =>
        match Project.from_dict now r with
        | none => Except.error StorageError.badRecord
        | some p2 => Except.ok (some p2)) = Except.ok (some p)
    rw [storage_codec_round_trip]
    show (match Project.from_dict now p.to_dict with
      | none => Except.error StorageError.badRecord
      | some p2 => Except.ok (some p2)) = Except.ok (some p)
    rw [project_from_dict_to_dict p now]

/-! ## C4: the composite sort order of list_tasks -/

theorem listLeb_cons_iff (a b : Int) (as bs : List Int) :
    listLeb (a :: as) (b :: bs) = true ↔
      (a < b ∨ (a = b ∧ listLeb as bs = true)) := by
  simp only [listLeb]
  split_ifs with h1 h2
  · simp [h1]
  · constructor
    · intro h
      cases h
    · rintro (h | ⟨h, _⟩) <;> omega
  · have he : a = b := by omega
    simp [he, lt_irrefl]

theorem task_le_iff_claim_order (t u : Task) : task_le t u ↔ claim_order t u := by
  rw [task_le, sort_key, sort_key, listLeb_cons_iff, listLeb_cons_iff, listLeb_cons_iff]
  rw [claim_order, strLeb]
  cases ht : t.is_complete <;> cases hu : u.is_complete <;>
    simp [neg_lt_neg_iff, neg_inj]

/-- C4: `list_tasks` with `sort_by_points` true returns a permutation of
the (unsorted) listing, ordered by the composite key — incomplete before
complete/cancelled, then descending story points, then ascending position,
then ascending creation timestamp — ties at each level broken by the next
key; the result is a deterministic function of the stored rows. -/
theorem list_tasks_sorted (key : Nat) (now : String) (pid : Option String)
    (db : DB) (ts : List Task)
    (h : Storage.list_tasks key now pid true db = .ok ts) :
    (∃ ts0, Storage.list_tasks key now pid false db = .ok ts0 ∧ ts.Perm ts0) ∧
    ts.Sorted claim_order := by
  rw [Storage.list_tasks] at h ⊢
  cases hd : Storage.decrypt_task_rows key now (Storage.task_rows pid db) with
  | error e => rw [hd] at h; cases h
  | ok ts0 =>
    rw [hd] at h
    have hts : ts = List.insertionSort task_le ts0 := by
      have h2 : (Except.ok
          (if true = true then List.insertionSort task_le ts0 else ts0) :
            Except StorageError (List Task)) = .ok ts := h
      simp only [if_pos rfl] at h2
      exact (Except.ok.injEq _ _ |>.mp h2).symm
    constructor
    · refine ⟨ts0, ?_, ?_⟩
      · show Except.ok (if false = true then List.insertionSort task_le ts0 else ts0) =
          .ok ts0
        simp
      · rw [hts]
        exact List.perm_insertionSort task_le ts0
    · rw [hts]
      have hs := List.sorted_insertionSort task_le ts0
      exact hs.imp fun {a b} hab => (task_le_iff_claim_order a b).mp hab

/-! ## C8: absent ids -/

/-- C8: `get_project` and `get_task` on an id absent from the store return
an absent result without raising, and `delete_task` on an absent id leaves
the store unchanged. -/
theorem missing_id_behavior (key : Nat) (now : String) (the_id : String)
    (db : DB)
    (hp : ∀ row ∈ db.projects, row.1 ≠ the_id)
    (ht : ∀ row ∈ db.tasks, row.1 ≠ the_id) :
    Storage.get_project key now the_id db = .ok none ∧
    Storage.get_task key now the_id db = .ok none ∧
    Storage.delete_task the_id db = db := by
  refine ⟨?_, ?_, ?_⟩
  · rw [Storage.get_project,
      find?_none_of_all _ _ (fun row hrow => by simp [hp row hrow])]
  · rw [Storage.get_task,
      find?_none_of_all _ _ (fun row hrow => by simp [ht row hrow])]
  · rw [Storage.delete_task]
    have hfix : db.tasks.filter (fun row => row.1 ≠ the_id) = db.tasks :=
      List.filter_eq_self.mpr (fun row hrow => by simp [ht row hrow])
    rw [hfix]

/-! ## C5: cascade delete -/

/-- C5 counterexample: when the project row is absent but a task row still
references the id, `delete_project` is not a no-op — it deletes that task. -/
theorem delete_project_not_noop :
    Storage.delete_project "ghost"
        { projects := [], tasks := [("t1", "ghost", [0])] } ≠
      { projects := [], tasks := [("t1", "ghost", [0])] } := by
  decide

/-- C5 (amended): `delete_project` deletes the matching tasks first (after
that statement no task row references the id) and then the project row;
when neither a project row nor any task row carries the id it is a no-op;
afterwards `list_tasks` filtered by that (non-empty, since `list_tasks`
treats `""` as "no filter") project id returns the empty list. -/
theorem delete_project_cascade (key : Nat) (now : String) (pid : String)
    (db : DB) (b : Bool) (hpid : pid ≠ "") :
    (∀ row ∈ (Storage.delete_project_tasks pid db).tasks, row.2.1 ≠ pid) ∧
    Storage.delete_project pid db =
      { Storage.delete_project_tasks pid db with
        projects := (Storage.delete_project_tasks pid db).projects.filter
          (fun row => row.1 ≠ pid) } ∧
    Storage.list_tasks key now (some pid) b (Storage.delete_project pid db) =
      .ok [] ∧
    (((∀ row ∈ db.projects, row.1 ≠ pid) ∧ (∀ row ∈ db.tasks, row.2.1 ≠ pid)) →
      Storage.delete_project pid db = db) := by
  refine ⟨?_, rfl, ?_, ?_⟩
  · intro row hrow
    rw [Storage.delete_project_tasks] at hrow
    have hmem := List.mem_filter.mp hrow
    simpa using hmem.2
  · rw [Storage.list_tasks]
    have hrows : Storage.task_rows (some pid) (Storage.delete_project pid db) = [] := by
      rw [Storage.task_rows, if_neg hpid]
      apply List.filter_eq_nil_iff.mpr
      intro row hrow
      have hmem := List.mem_filter.mp
        (show row ∈ db.tasks.filter (fun r => r.2.1 ≠ pid) from hrow)
      simp only [decide_not, Bool.not_eq_eq_eq_not, Bool.not_true,
        decide_eq_false_iff_not] at hmem
      simp [hmem.2]
    rw [hrows]
    show Except.ok (if b = true then List.insertionSort task_le [] else []) = .ok []
    cases b <;> rfl
  · rintro ⟨hp, ht⟩
    cases db with
    | mk ps tsk =>
      have h1 : tsk.filter (fun row => row.2.1 ≠ pid) = tsk :=
        List.filter_eq_self.mpr fun row hrow => by simp [ht row hrow]
      have h2 : ps.filter (fun row => row.1 ≠ pid) = ps :=
        List.filter_eq_self.mpr fun row hrow => by simp [hp row hrow]
      simp only [Storage.delete_project, Storage.delete_project_tasks]
      rw [h1, h2]

/-! ## C6: project statistics -/

/-- C6: `get_project_stats` returns the task count, DONE count, IN_PROGRESS
count, a todo count equal to total minus done minus in_progress, the sums
of story points (all tasks, and DONE tasks), and a completion percentage of
`done_points / total_points * 100`, equal to 0 when `total_points` is 0. -/
theorem get_project_stats_spec (key : Nat) (now : String) (pid : String)
    (db : DB) (ts : List Task)
    (h : Storage.list_tasks key now (some pid) false db = .ok ts) :
    Storage.get_project_stats key now pid db = .ok {
      total_tasks := ts.length,
      done_tasks := (ts.filter (fun t => t.status == TaskStatus.done)).length,
      in_progress_tasks :=
        (ts.filter (fun t => t.status == TaskStatus.in_progress)).length,
      todo_tasks := (ts.length : Int) -
        (ts.filter (fun t => t.status == TaskStatus.done)).length -
        (ts.filter (fun t => t.status == TaskStatus.in_progress)).length,
      total_points := (ts.map Task.story_points).sum,
      done_points :=
        ((ts.filter (fun t => t.status == TaskStatus.done)).map Task.story_points).sum,
      completion_pct :=
        if (ts.map Task.story_points).sum = 0 then 0
        else (((ts.filter (fun t => t.status == TaskStatus.done)).map
            Task.story_points).sum : Rat) /
          ((ts.map Task.story_points).sum : Rat) * 100 } := by
  rw [Storage.get_project_stats, h]
  have hfd : (fun t : Task => t.status.value == "done") =
      (fun t : Task => t.status == TaskStatus.done) := by
    funext t
    cases ht2 : t.status <;> rfl
  have hfip : (fun t : Task => t.status.value == "in_progress") =
      (fun t : Task => t.status == TaskStatus.in_progress) := by
    funext t
    cases ht2 : t.status <;> rfl
  rw [hfd, hfip]

/-! ## C7: position allocation -/

theorem foldl_max_le_init : ∀ (l : List Int) (a : Int), a ≤ l.foldl max a := by
  intro l
  induction l with
  | nil => intro a; exact le_refl a
  | cons x t ih =>
    intro a
    exact le_trans (le_max_left a x) (ih (max a x))

theorem foldl_max_le : ∀ (l : List Int) (a x : Int), x ∈ l → x ≤ l.foldl max a := by
  intro l
  induction l with
  | nil => intro a x hx; cases hx
  | cons y t ih =>
    intro a x hx
    rcases List.mem_cons.mp hx with h1 | h1
    · rw [h1]
      exact le_trans (le_max_right a y) (foldl_max_le_init t (max a y))
    · exact ih (max a y) x h1

theorem foldl_max_mem : ∀ (l : List Int) (a : Int),
    l.foldl max a = a ∨ l.foldl max a ∈ l := by
  intro l
  induction l with
  | nil => intro a; left; rfl
  | cons x t ih =>
    intro a
    rcases ih (max a x) with h1 | h1
    · rcases max_choice a x with h2 | h2
      · left
        show t.foldl max (max a x) = a
        rw [h1, h2]
      · right
        show t.foldl max (max a x) ∈ x :: t
        rw [h1, h2]
        exact List.mem_cons_self x t
    · right
      exact List.mem_cons_of_mem x h1

set_option maxRecDepth 100000 in
/-- C7 counterexample: a task is saved at position 0 (so 0 was allocated:
the next position was 1); after deleting it, `get_next_position` returns 0
again — the allocated position of a deleted maximum task is reused. -/
theorem get_next_position_reuse :
    Storage.get_next_position 3 "n" "p" wDb7 = .ok 1 ∧
    Storage.get_next_position 3 "n" "p" (Storage.delete_task "t1" wDb7) = .ok 0 ∧
    (wTask "t1" 2 .todo 0).position = 0 := by
  refine ⟨?_, ?_, rfl⟩
  · decide
  · decide

/-- C7 (amended): `get_next_position` returns 0 when the project has no
tasks and otherwise 1 + the maximum position among them, which is strictly
greater than every live task's position; deletion never rewrites the
surviving rows (no recompaction) — though deleting the maximum-position
task itself makes its position available again. -/
theorem get_next_position_spec (key : Nat) (now : String) (pid : String)
    (db : DB) (ts : List Task)
    (h : Storage.list_tasks key now (some pid) false db = .ok ts) :
    (ts = [] → Storage.get_next_position key now pid db = .ok 0) ∧
    (ts ≠ [] → ∃ m ∈ ts,
      (∀ u ∈ ts, u.position ≤ m.position) ∧
      Storage.get_next_position key now pid db = .ok (m.position + 1) ∧
      (∀ u ∈ ts, u.position < m.position + 1)) ∧
    (∀ d : String, ∀ row ∈ (Storage.delete_task d db).tasks, row ∈ db.tasks) := by
  refine ⟨?_, ?_, ?_⟩
  · intro hts
    subst hts
    rw [Storage.get_next_position, h]
  · intro hne
    obtain ⟨t, rest, hcons⟩ := List.exists_cons_of_ne_nil hne
    subst hcons
    have hofs : Storage.get_next_position key now pid db =
        .ok ((rest.map Task.position).foldl max t.position + 1) := by
      rw [Storage.get_next_position, h]
    have hub : ∀ u ∈ t :: rest,
        u.position ≤ (rest.map Task.position).foldl max t.position := by
      intro u hu
      rcases List.mem_cons.mp hu with h1 | h1
      · rw [h1]
        exact foldl_max_le_init _ _
      · exact foldl_max_le _ _ _ (List.mem_map_of_mem Task.position h1)
    rcases foldl_max_mem (rest.map Task.position) t.position with h1 | h1
    · refine ⟨t, List.mem_cons_self t rest, ?_, ?_, ?_⟩
      · intro u hu
        exact h1 ▸ hub u hu
      · rw [hofs, h1]
      · intro u hu
        have := h1 ▸ hub u hu
        omega
    · obtain ⟨m, hmmem, hmeq⟩ := List.mem_map.mp h1
      refine ⟨m, List.mem_cons_of_mem t hmmem, ?_, ?_, ?_⟩
      · intro u hu
        exact hmeq ▸ hub u hu
      · rw [hofs, hmeq]
      · intro u hu
        have := hmeq ▸ hub u hu
        omega
  · intro d row hrow
    rw [Storage.delete_task] at hrow
    exact List.mem_of_mem_filter hrow

/-! ## C2: key initialization on corrupt files -/

/-- C2 counterexample: with an empty (truncated/corrupt) key file and salt
file, key initialization succeeds — it derives a key from the corrupt
bytes instead of failing with a `KeyCorruptError`. -/
theorem key_init_accepts_corrupt_files :
    get_or_create_key [1, 2] [3] { keyFile := some [], saltFile := some [] } =
      .ok (kdfDerive [] [], { keyFile := some [], saltFile := some [] }) := rfl

/-- C2 (amended): when key and salt files exist their bytes are loaded
unchanged and never regenerated, but no validation happens: initialization
always succeeds, silently deriving the key from whatever the files hold. -/
theorem get_or_create_key_uses_existing_unvalidated
    (freshMaster freshSalt master salt : List Nat) :
    get_or_create_key freshMaster freshSalt
        { keyFile := some master, saltFile := some salt } =
      .ok (kdfDerive master salt,
        { keyFile := some master, saltFile := some salt }) ∧
    get_or_create_key freshMaster freshSalt
        { keyFile := some master, saltFile := none } =
      .ok (kdfDerive master freshSalt,
        { keyFile := some master, saltFile := some freshSalt }) :=
  ⟨rfl, rfl⟩

/-! ## Witnesses: the hypothesised claim theorems at concrete inputs -/

set_option maxRecDepth 200000 in
/-- C3's theorem at a concrete record, key, nonce, byte position and byte
value. -/
theorem decrypt_tamper_detects_witness :
    Storage.decrypt 3 ((Storage.encrypt 3 5 [("a", JVal.jint 1)]).set 2 7) =
      none :=
  decrypt_tamper_detects 3 5 [("a", JVal.jint 1)] 2 7 (by decide) (by decide)
    (by decide)

set_option maxRecDepth 200000 in
/-- C4's theorem on a concrete two-task store. -/
theorem list_tasks_sorted_witness :
    (∃ ts0, Storage.list_tasks 3 "n" (some "p") false wDb2 = .ok ts0 ∧
      ([wTask "t2" 13 .todo 1, wTask "t1" 5 .todo 0] : List Task).Perm ts0) ∧
    ([wTask "t2" 13 .todo 1, wTask "t1" 5 .todo 0] : List Task).Sorted
      claim_order :=
  list_tasks_sorted 3 "n" (some "p") wDb2
    [wTask "t2" 13 .todo 1, wTask "t1" 5 .todo 0] (by decide)

/-- C5's amended theorem on a concrete store with two projects. -/
theorem delete_project_cascade_witness :
    (∀ row ∈ (Storage.delete_project_tasks "p" wDb5).tasks, row.2.1 ≠ "p") ∧
    Storage.delete_project "p" wDb5 =
      { Storage.delete_project_tasks "p" wDb5 with
        projects := (Storage.delete_project_tasks "p" wDb5).projects.filter
          (fun row => row.1 ≠ "p") } ∧
    Storage.list_tasks 3 "n" (some "p") true (Storage.delete_project "p" wDb5) =
      .ok [] ∧
    (((∀ row ∈ wDb5.projects, row.1 ≠ "p") ∧
        (∀ row ∈ wDb5.tasks, row.2.1 ≠ "p")) →
      Storage.delete_project "p" wDb5 = wDb5) :=
  delete_project_cascade 3 "n" "p" wDb5 true (by decide)

set_option maxRecDepth 200000 in
/-- C6's theorem on a concrete store: one DONE task of 3 points, one TODO
task of 5 points (total 8, done 3, completion 37.5). -/
theorem get_project_stats_spec_witness :
    Storage.get_project_stats 3 "n" "p" wDbStats = .ok {
      total_tasks := wStatsTasks.length,
      done_tasks :=
        (wStatsTasks.filter (fun t => t.status == TaskStatus.done)).length,
      in_progress_tasks :=
        (wStatsTasks.filter (fun t => t.status == TaskStatus.in_progress)).length,
      todo_tasks := (wStatsTasks.length : Int) -
        (wStatsTasks.filter (fun t => t.status == TaskStatus.done)).length -
        (wStatsTasks.filter (fun t => t.status == TaskStatus.in_progress)).length,
      total_points := (wStatsTasks.map Task.story_points).sum,
      done_points := ((wStatsTasks.filter
        (fun t => t.status == TaskStatus.done)).map Task.story_points).sum,
      completion_pct :=
        if (wStatsTasks.map Task.story_points).sum = 0 then 0
        else (((wStatsTasks.filter (fun t => t.status == TaskStatus.done)).map
            Task.story_points).sum : Rat) /
          ((wStatsTasks.map Task.story_points).sum : Rat) * 100 } :=
  get_project_stats_spec 3 "n" "p" wDbStats wStatsTasks (by decide)

set_option maxRecDepth 200000 in
/-- C7's amended theorem on the spec's scenario: tasks at positions 0, 1, 2
with the one at position 1 deleted — the next position is still 3. -/
theorem get_next_position_spec_witness :
    (wTs7 = [] →
      Storage.get_next_position 3 "n" "p" (Storage.delete_task "t2" wDb3) =
        .ok 0) ∧
    (wTs7 ≠ [] → ∃ m ∈ wTs7,
      (∀ u ∈ wTs7, u.position ≤ m.position) ∧
      Storage.get_next_position 3 "n" "p" (Storage.delete_task "t2" wDb3) =
        .ok (m.position + 1) ∧
      (∀ u ∈ wTs7, u.position < m.position + 1)) ∧
    (∀ d : String,
      ∀ row ∈ (Storage.delete_task d (Storage.delete_task "t2" wDb3)).tasks,
        row ∈ (Storage.delete_task "t2" wDb3).tasks) :=
  get_next_position_spec 3 "n" "p" (Storage.delete_task "t2" wDb3) wTs7
    (by decide)

/-- C8's theorem on a concrete store and an id absent from it. -/
theorem missing_id_behavior_witness :
    Storage.get_project 3 "n" "zzz" wDb5 = .ok none ∧
    Storage.get_task 3 "n" "zzz" wDb5 = .ok none ∧
    Storage.delete_task "zzz" wDb5 = wDb5 :=
  missing_id_behavior 3 "n" "zzz" wDb5 (by decide) (by decide)

end Tudu
